import Mathlib

/-!
Verification of the bedtimenews-agent repository: a shallow embedding of the
agent workflow (routing, query rewriting, retrieval merging, document grading,
retry loop, citation naming, retrieval caching) and of the indexer (change
detection, chunk emission, embedding split/merge), with theorems settling the
frozen specification claims.

Conventions:
- Python strings are modelled as Lean `String` where only concrete-literal
  comparison is needed, and as `List Char` where the proofs must reason about
  prefixes and splitting (`_get_episode_name`).
- Python floats (similarity scores, thresholds) are modelled as `Int`:
  the claims depend only on ordering and equality of these values.
- LLM calls are abstracted as function parameters (the code treats the
  response as an opaque string).
-/

namespace BedtimeNews

/- ================================================================
   agent/src/graph.py : _documents_grade_node parsing (lines 512-538)
   ================================================================ -/

/-- A retrieved chunk as seen by the agent graph (LangChain `Document`
metadata relevant to the claims; `page_content` is `text`). -/
structure ChunkDoc where
  chunk_id : String
  doc_id : String
  similarity : Int
  text : String
deriving DecidableEq, Repr

/-- `re.findall(r"\d+", s)`: the maximal runs of decimal digits of `s`,
in order. `go` carries the run currently being built (in reverse). -/
def findallDigits (s : List Char) : List (List Char) :=
  go s []
where
  go : List Char → List Char → List (List Char)
    | [], [] => []
    | [], run => [run.reverse]
    | c :: rest, run =>
      if c.isDigit then go rest (c :: run)
      else if run = [] then go rest []
      else run.reverse :: go rest []

/-- `int(n)` on a digit string: decimal value. -/
def digitsToNat (ds : List Char) : Nat :=
  ds.foldl (fun acc c => acc * 10 + (c.toNat - '0'.toNat)) 0

/-- `str.strip()`: remove leading and trailing whitespace. -/
def stripChars (l : List Char) : List Char :=
  ((l.dropWhile Char.isWhitespace).reverse.dropWhile Char.isWhitespace).reverse

/-- `str.upper()` (ASCII case folding suffices for the claims: the sentinels
`NONE`/`ALL` and digit lists are ASCII). -/
def upperChars (l : List Char) : List Char :=
  l.map Char.toUpper

/-- `response.content.strip().upper()`. -/
def normalizeResponse (s : String) : String :=
  String.mk (upperChars (stripChars s.data))

/-- The parsing policy of `_documents_grade_node` applied to the normalized
response text over the candidate list `docs`:
`"NONE"` gives the empty list, `"ALL"` gives every document, and otherwise the
digit runs of the response are read as 1-based indices, filtered to `[1, N]`,
collapsed to a set, sorted ascending and mapped back to documents.  The
source wraps this last branch in `try/except (ValueError, IndexError)` whose
handler keeps all documents, but no expression in the branch can raise either
exception, so the handler is unreachable and is not part of the function's
behaviour. -/
def gradeParse (responseText : String) (docs : List ChunkDoc) : List ChunkDoc :=
  if responseText = "NONE" then []
  else if responseText = "ALL" then docs
  else
    let numbers := findallDigits responseText.data
    let relevantIndices :=
      ((numbers.map digitsToNat).filter
        (fun n => 1 ≤ n ∧ n ≤ docs.length)).map (fun n => n - 1)
    let sortedIndices := List.insertionSort (fun a b => a ≤ b) relevantIndices.dedup
    sortedIndices.filterMap (fun i => docs[i]?)

/-- `_documents_grade_node` relevance computation: normalize the raw model
response, then apply the parsing policy.  (The surrounding node also
short-circuits on an empty document list; see `gradeNode`.) -/
def documentsGrade (rawResponse : String) (docs : List ChunkDoc) : List ChunkDoc :=
  gradeParse (normalizeResponse rawResponse) docs

/- ================================================================
   agent/src/graph.py : _retrieve_node merge logic (lines 423-436)
   ================================================================ -/

/-- The deduplication loop of `_retrieve_node`: first occurrence of each
`chunk_id` wins; `seen` is the set of chunk ids already kept. -/
def dedupByIdAux : List ChunkDoc → List String → List ChunkDoc
  | [], _ => []
  | c :: rest, seen =>
    if c.chunk_id ∈ seen then dedupByIdAux rest seen
    else c :: dedupByIdAux rest (c.chunk_id :: seen)

/-- Deduplicate retrieved chunks by `chunk_id`, first occurrence winning. -/
def dedupById (l : List ChunkDoc) : List ChunkDoc :=
  dedupByIdAux l []

/-- The similarity-descending order: `a` may come before `b` when
`b.similarity ≤ a.similarity`. -/
def simGe (a b : ChunkDoc) : Prop :=
  b.similarity ≤ a.similarity

instance : DecidableRel simGe :=
  fun a b => inferInstanceAs (Decidable (b.similarity ≤ a.similarity))

instance : IsTotal ChunkDoc simGe :=
  ⟨fun a b => (le_total b.similarity a.similarity).imp id id⟩

instance : IsTrans ChunkDoc simGe :=
  ⟨fun _ _ _ hab hbc => le_trans hbc hab⟩

/-- `unique_chunks.sort(key=similarity, reverse=True)`: stable sort by
similarity descending (a stable insertion sort, matching Python's stable
sort semantics; the spec leaves tie order unspecified). -/
def sortBySimilarityDesc (l : List ChunkDoc) : List ChunkDoc :=
  List.insertionSort simGe l

/-- The merge logic of `_retrieve_node`: deduplicate by chunk id, sort by
similarity descending, keep the top 30. -/
def mergeRetrievedChunks (l : List ChunkDoc) : List ChunkDoc :=
  (sortBySimilarityDesc (dedupById l)).take 30

/- ================================================================
   agent/src/graph.py : AgentState, nodes and control flow
   ================================================================ -/

/-- `AgentState` of the workflow (graph.py lines 81-104).  `reasoning_steps`
and `final_answer` are carried but irrelevant to the claims; the reasoning
trace is modelled as a count of appended messages. -/
structure AgentState where
  question : String
  needs_retrieval : Bool
  rewritten_queries : List String
  documents : List ChunkDoc
  relevant_documents : List ChunkDoc
  final_answer : String
  reasoning_steps : Nat
  iteration_count : Nat
  max_iterations : Nat
deriving Repr

/-- `create_initial_state` (graph.py lines 811-822): iteration_count 0,
max_iterations 2. -/
def createInitialState (question : String) : AgentState :=
  { question := question
    needs_retrieval := false
    rewritten_queries := []
    documents := []
    relevant_documents := []
    final_answer := ""
    reasoning_steps := 0
    iteration_count := 0
    max_iterations := 2 }

/-- The LLM calls of the workflow, abstracted: `rewriteFn` maps
(question, iteration_count, previous queries) to the rewritten query list
(the parsed lines of the model response); `perQueryRetrieve` maps one query
to the chunk results returned by the retriever; `gradeFn` maps
(question, documents) to the raw grading response string. -/
structure AgentEnv where
  rewriteFn : String → Nat → List String → List String
  perQueryRetrieve : String → List ChunkDoc
  gradeFn : String → List ChunkDoc → String

/-- `_route_node` decision (graph.py lines 238-256): the classifier content
(`none` when the response content is not a string) is stripped and
uppercased; `needs_retrieval` is set exactly when it equals `"RAG"`. -/
def routeDecision (content : Option String) : Option String :=
  content.map normalizeResponse

/-- `_route_node`: sets `needs_retrieval` from the classifier output and
appends one reasoning step. -/
def routeNode (content : Option String) (st : AgentState) : AgentState :=
  { st with
    needs_retrieval := routeDecision content = some "RAG"
    reasoning_steps := st.reasoning_steps + 1 }

/-- `_should_retrieve` (graph.py lines 707-711). -/
def shouldRetrieve (st : AgentState) : String :=
  if st.needs_retrieval then "retrieve" else "direct"

/-- `_query_rewrite_node` (graph.py lines 259-377): overwrites
`rewritten_queries` with the freshly generated queries and increments
`iteration_count`. -/
def queryRewriteNode (env : AgentEnv) (st : AgentState) : AgentState :=
  { st with
    rewritten_queries := env.rewriteFn st.question st.iteration_count st.rewritten_queries
    reasoning_steps := st.reasoning_steps + 1
    iteration_count := st.iteration_count + 1 }

/-- `_retrieve_node` (graph.py lines 380-456): retrieve for every rewritten
query, concatenate, dedup by chunk id, sort by similarity descending, keep
top 30. -/
def retrieveNode (env : AgentEnv) (st : AgentState) : AgentState :=
  { st with
    documents := mergeRetrievedChunks (st.rewritten_queries.flatMap env.perQueryRetrieve)
    reasoning_steps := st.reasoning_steps + 1 }

/-- `_documents_grade_node` (graph.py lines 459-554): on an empty document
list grading is skipped and `relevant_documents` is set empty; otherwise the
grading response is parsed by the policy `documentsGrade`. -/
def gradeNode (env : AgentEnv) (st : AgentState) : AgentState :=
  if st.documents = [] then
    { st with relevant_documents := [], reasoning_steps := st.reasoning_steps + 1 }
  else
    { st with
      relevant_documents := documentsGrade (env.gradeFn st.question st.documents) st.documents
      reasoning_steps := st.reasoning_steps + 1 }

/-- `_should_refine_query` (graph.py lines 714-739): generate when relevant
documents exist; otherwise rewrite while `iteration_count < max_iterations`,
else generate. -/
def shouldRefineQuery (st : AgentState) : String :=
  if st.relevant_documents ≠ [] then "generate"
  else if st.iteration_count < st.max_iterations then "rewrite"
  else "generate"

/-- One rewrite → retrieve → grade round. -/
def ragRound (env : AgentEnv) (st : AgentState) : AgentState :=
  gradeNode env (retrieveNode env (queryRewriteNode env st))

/-- The RAG pipeline loop entered from the `query_rewrite` node: runs rounds
until `_should_refine_query` routes to `generate`.  Returns the final state
together with the history of query lists generated by the successive rewrite
rounds (most recent last).  Termination: each round increments
`iteration_count`, and the loop guard requires it to stay below the fixed
`max_iterations`. -/
def ragLoop (env : AgentEnv) (st : AgentState) : AgentState × List (List String) :=
  if h : shouldRefineQuery (ragRound env st) = "rewrite" then
    ((ragLoop env (ragRound env st)).1,
     (ragRound env st).rewritten_queries :: (ragLoop env (ragRound env st)).2)
  else
    (ragRound env st, [(ragRound env st).rewritten_queries])
termination_by st.max_iterations - st.iteration_count
decreasing_by
  have hic : ∀ s, (ragRound env s).iteration_count = s.iteration_count + 1 := by
    intro s
    simp only [ragRound, gradeNode, retrieveNode, queryRewriteNode]
    split <;> rfl
  have hmx : ∀ s, (ragRound env s).max_iterations = s.max_iterations := by
    intro s
    simp only [ragRound, gradeNode, retrieveNode, queryRewriteNode]
    split <;> rfl
  have hlt : (ragRound env st).iteration_count < (ragRound env st).max_iterations := by
    unfold shouldRefineQuery at h
    split at h
    · exact absurd h (by decide)
    · split at h
      · assumption
      · exact absurd h (by decide)
  rw [hic, hmx] at hlt ⊢
  omega

/- ================================================================
   indexer/src/change_detector.py : detect_changes (lines 11-35)
   ================================================================ -/

/-- Accumulator of the `detect_changes` loop: the `added` and `modified`
sets built so far, and the mutable `indexed_files` set (files are discarded
from it as they are visited; what remains at the end is `deleted`). -/
structure DetectAcc where
  added : List String
  modified : List String
  indexed : List String
deriving Repr, DecidableEq

/-- One iteration of the `detect_changes` loop over a current file `f`:
a file absent from the indexed set, or whose `IndexingHistory` record is
missing, is added; a file whose stored content hash differs from the
freshly computed hash is modified; otherwise it is untouched.  In every
case `f` is discarded from the remaining indexed set. -/
def detectStep (history : String → Option String) (hashF : String → String)
    (acc : DetectAcc) (f : String) : DetectAcc :=
  let acc1 :=
    if f ∉ acc.indexed then { acc with added := f :: acc.added }
    else
      match history f with
      | none => { acc with added := f :: acc.added }
      | some storedHash =>
        if storedHash ≠ hashF f then { acc with modified := f :: acc.modified }
        else acc
  { acc1 with indexed := acc1.indexed.filter (fun g => g ≠ f) }

/-- `detect_changes(current_files)`: fold the loop over the current source
file listing, starting from the persisted indexed-file set.  `history f` is
the stored content hash of `f`'s `IndexingHistory` record (`none` when the
record is missing), `hashF f` is the current SHA-256 content digest of `f`
(`calculate_file_hash`).  The result's `added`/`modified` fields are the
first two returned sets and its `indexed` field is the `deleted` set. -/
def detectChanges (currentFiles : List String) (indexedFiles : List String)
    (history : String → Option String) (hashF : String → String) : DetectAcc :=
  currentFiles.foldl (detectStep history hashF) ⟨[], [], indexedFiles⟩

/- ================================================================
   indexer/src/chunker.py : count_words (73-88) and the emission
   loop of chunk_document (50-63)
   ================================================================ -/

/-- A CJK ideograph, regex class `[一-鿿]`. -/
def isCJK (c : Char) : Bool :=
  0x4e00 ≤ c.toNat && c.toNat ≤ 0x9fff

/-- A Latin letter, regex class `[a-zA-Z]`. -/
def isLatinLetter (c : Char) : Bool :=
  ('a' ≤ c && c ≤ 'z') || ('A' ≤ c && c ≤ 'Z')

/-- Number of maximal Latin-letter runs (`re.findall(r"[a-zA-Z]+", s)`):
`inRun` records whether the previous character was a Latin letter. -/
def latinRunCount : List Char → Bool → Nat
  | [], _ => 0
  | c :: rest, inRun =>
    if isLatinLetter c then (if inRun then 0 else 1) + latinRunCount rest true
    else latinRunCount rest false

/-- `count_words`: each CJK ideograph counts as one word, each maximal
Latin-letter run counts as one word. -/
def count_words (text : String) : Nat :=
  (text.data.filter isCJK).length + latinRunCount text.data false

/-- A candidate chunk produced by `_chunk_section` (its `text` and `heading`
fields; the other dictionary fields do not affect emission). -/
structure ChunkData where
  text : String
  heading : Option String
deriving Repr, DecidableEq

/-- An emitted `Chunk` (indexer/src/models.py fields set by
`chunk_document`). -/
structure Chunk where
  id : String
  doc_id : String
  chunk_index : Nat
  heading : Option String
  text : String
  word_count : Nat
deriving Repr, DecidableEq

/-- `f"{n:03d}"`: zero-pad to width 3. -/
def pad3 (n : Nat) : String :=
  if n < 10 then "00" ++ toString n
  else if n < 100 then "0" ++ toString n
  else toString n

/-- Replace `/` by `_` in a doc id (`doc_id.replace('/', '_')`). -/
def slashToUnderscore (s : String) : String :=
  String.mk (s.data.map (fun c => if c = '/' then '_' else c))

/-- Build the emitted chunk for candidate `c` at `chunk_index` (the `Chunk`
constructed in `chunk_document`). -/
def mkChunk (docId : String) (idx : Nat) (c : ChunkData) : Chunk :=
  { id := slashToUnderscore docId ++ "_chunk_" ++ pad3 idx
    doc_id := docId
    chunk_index := idx
    heading := c.heading
    text := c.text
    word_count := count_words c.text }

/-- The emission loop of `chunk_document` (lines 50-63), with the candidate
chunk dictionaries produced by the per-section `_chunk_section` calls
flattened (in order) into `candidates`: a candidate whose word count is
below `minChunkSize` is skipped without consuming a `chunk_index`; a
retained candidate is emitted with the current index, which is then
incremented. -/
def emitChunksAux (docId : String) (minChunkSize : Nat) :
    List ChunkData → Nat → List Chunk
  | [], _ => []
  | c :: rest, idx =>
    if minChunkSize ≤ count_words c.text then
      mkChunk docId idx c :: emitChunksAux docId minChunkSize rest (idx + 1)
    else
      emitChunksAux docId minChunkSize rest idx

/-- `chunk_document`'s chunk emission starting from `chunk_index = 0`. -/
def emitChunks (docId : String) (minChunkSize : Nat)
    (candidates : List ChunkData) : List Chunk :=
  emitChunksAux docId minChunkSize candidates 0

/- ================================================================
   indexer/src/embeddings.py : generate_embeddings and helpers
   ================================================================ -/

/-- `MAX_TOKENS_PER_INPUT` for text-embedding-3-small. -/
def MAX_TOKENS_PER_INPUT : Nat := 8191

/-- Successive slices of `l` of `n` elements (`range(0, len(l), n)` slicing).
The `0` case mirrors defensive totality only; every call site uses
`MAX_TOKENS_PER_INPUT - 100` or a positive batch size. -/
def chunksOf : Nat → List α → List (List α)
  | _, [] => []
  | 0, l => [l]
  | n + 1, x :: xs => (x :: xs).take (n + 1) :: chunksOf (n + 1) (xs.drop n)
termination_by _ l => l.length
decreasing_by simp [List.length_drop]; omega

/-- `_split_by_tokens`: slice the token list into pieces of at most
`maxTokens - 100` tokens (a 100-token safety buffer below the hard limit)
and decode each slice back to text. -/
def splitByTokens (decode : List Nat → String) (tokens : List Nat)
    (maxTokens : Nat) : List String :=
  (chunksOf (maxTokens - 100) tokens).map decode

/-- The per-text expansion of `_validate_and_split_texts`: a text within the
token limit stays a single piece; an oversized text becomes its
`_split_by_tokens` pieces. -/
def piecesOf (encode : String → List Nat) (decode : List Nat → String)
    (text : String) : List String :=
  let tokens := encode text
  if tokens.length ≤ MAX_TOKENS_PER_INPUT then [text]
  else splitByTokens decode tokens MAX_TOKENS_PER_INPUT

/-- `_validate_and_split_texts`: the flattened (piece, original index) pairs
in input order. -/
def validateEntries (encode : String → List Nat) (decode : List Nat → String)
    (texts : List String) : List (String × Nat) :=
  texts.enum.flatMap (fun p => (piecesOf encode decode p.2).map (fun t => (t, p.1)))

/-- `_validate_and_split_texts` returns (validated_texts, original_indices). -/
def validateAndSplitTexts (encode : String → List Nat) (decode : List Nat → String)
    (texts : List String) : List String × List Nat :=
  ((validateEntries encode decode texts).map Prod.fst,
   (validateEntries encode decode texts).map Prod.snd)

/-- The batch loop of `generate_embeddings`: the validated texts are embedded
in batches of `batchSize` via `_generate_batch` and the per-batch vectors are
concatenated in order. -/
def generateBatched (embed : String → List ℚ) (batchSize : Nat)
    (validated : List String) : List (List ℚ) :=
  (chunksOf batchSize validated).flatMap (fun batch => batch.map embed)

/-- `zip(*rows)` length: the minimum row length (0 for no rows). -/
def pyZipLen : List (List ℚ) → Nat
  | [] => 0
  | [r] => r.length
  | r :: rs => min r.length (pyZipLen rs)

/-- `zip(*rows)`: the columns of `rows`, truncated to the shortest row. -/
def pyZip (rows : List (List ℚ)) : List (List ℚ) :=
  (List.range (pyZipLen rows)).map (fun k => rows.map (fun r => r.getD k 0))

/-- `[sum(vals) / len(vals) for vals in zip(*embs)]`: element-wise average. -/
def avgEmbeddings (embs : List (List ℚ)) : List ℚ :=
  (pyZip embs).map (fun vals => vals.sum / (vals.length : ℚ))

/-- The per-group merge of `_merge_split_embeddings`: a single-part group is
used as-is, a multi-part group is averaged element-wise. -/
def mergeGroup : List (List ℚ) → List ℚ
  | [e] => e
  | embs => avgEmbeddings embs

/-- `grouped[idx]` of `_merge_split_embeddings`: the embeddings whose
original index is `idx`, in order (the dict built by the grouping loop maps
each index to exactly this list). -/
def groupedAt (embeddings : List (List ℚ)) (originalIndices : List Nat)
    (idx : Nat) : List (List ℚ) :=
  (embeddings.zip originalIndices).filterMap
    (fun p => if p.2 = idx then some p.1 else none)

/-- `_merge_split_embeddings(embeddings, original_indices, num_original)`:
identity when no split occurred (lengths agree), otherwise one merged vector
per original index. -/
def mergeSplitEmbeddings (embeddings : List (List ℚ)) (originalIndices : List Nat)
    (numOriginal : Nat) : List (List ℚ) :=
  if embeddings.length = numOriginal then embeddings
  else
    (List.range numOriginal).map
      (fun idx => mergeGroup (groupedAt embeddings originalIndices idx))

/-- `generate_embeddings(texts)` with the OpenAI tokenizer and embedding API
abstracted as `encode`/`decode`/`embed`: validate and split oversized texts,
embed all pieces in batches, then merge split pieces back by averaging. -/
def generate_embeddings (encode : String → List Nat) (decode : List Nat → String)
    (embed : String → List ℚ) (batchSize : Nat) (texts : List String) :
    List (List ℚ) :=
  if texts = [] then []
  else
    let validated := validateAndSplitTexts encode decode texts
    let allEmbeddings := generateBatched embed batchSize validated.1
    mergeSplitEmbeddings allEmbeddings validated.2 texts.length

/- ================================================================
   agent/src/graph.py : _get_episode_name (lines 747-797)
   ================================================================ -/

/-- Pattern-first matcher: `startsWithPat pat l` tests whether `pat` is a
leading segment of `l` (recursion on the pattern, so that a first-character
mismatch reduces definitionally). -/
def startsWithPat : List Char → List Char → Bool
  | [], _ => true
  | _ :: _, [] => false
  | b :: bs, a :: as => a = b && startsWithPat bs as

/-- `s.startswith(p)` over character lists. -/
def lcStartsWith (l p : List Char) : Bool :=
  startsWithPat p l

/-- `s.split("/")` over character lists: Python semantics for a non-empty
separator (`"" → [""]`, separators at the ends produce empty fields). -/
def splitSlash : List Char → List (List Char)
  | [] => [[]]
  | c :: rest =>
    match splitSlash rest with
    | [] => [[]]
    | h :: t => if c = '/' then [] :: h :: t else (c :: h) :: t

/-- `s.replace(".md", "")`: remove every (non-overlapping, left-to-right)
occurrence of `.md`. -/
def removeMd : List Char → List Char
  | '.' :: 'm' :: 'd' :: rest => removeMd rest
  | c :: rest => c :: removeMd rest
  | [] => []

/-- The trailing episode number of a doc id: the last `/`-separated path
component with `.md` occurrences removed (graph.py lines 770-774;
`parts[-1] if parts else doc_id`, and `split` never returns an empty list). -/
def trailingEpisodeNum (docId : List Char) : List Char :=
  removeMd ((splitSlash docId).getLastD docId)

/-- `_get_episode_name`: `livestream/` doc ids keep the whole remaining path
verbatim under the livestream template; every other recognized prefix gets
its own template applied to the trailing episode number; unrecognized
prefixes fall back to the generic `文档` template. -/
def get_episode_name (docId : List Char) : List Char :=
  if lcStartsWith docId "livestream/".data then
    "直播问答记录".data ++ docId.drop "livestream/".data.length
  else
    let episodeNum := trailingEpisodeNum docId
    if lcStartsWith docId "main/".data then "睡前消息".data ++ episodeNum
    else if lcStartsWith docId "reference/".data then "参考信息".data ++ episodeNum
    else if lcStartsWith docId "opinion/".data then "高见".data ++ episodeNum
    else if lcStartsWith docId "daily/".data then "每日新闻".data ++ episodeNum
    else if lcStartsWith docId "commercial/".data then "讲点黑话".data ++ episodeNum
    else if lcStartsWith docId "business/".data then "产经破壁机".data ++ episodeNum
    else "文档".data ++ episodeNum

/- ================================================================
   agent/src/cache.py and agent/src/retriever.py (_Retriever.retrieve)
   ================================================================ -/

/-- `RetrieveRequest` (agent/src/models.py): the fields used by
`_Retriever.retrieve`.  `match_threshold` is modelled as `Int` (only
equality matters to the claims). -/
structure RetrieveRequest where
  query : String
  match_threshold : Int
  match_count : Nat
  include_text : Bool
  include_heading : Bool
deriving DecidableEq, Repr

/-- A row returned by `search_similar_chunks` (vector_db.py). -/
structure ChunkRow where
  chunk_id : String
  doc_id : String
  chunk_index : Nat
  heading : String
  text : String
  word_count : Nat
  similarity : Int
deriving DecidableEq, Repr

/-- `ChunkResult` (agent/src/models.py): `heading` and `text` are omitted
(`none`) when the request flags are off. -/
structure ChunkResult where
  chunk_id : String
  doc_id : String
  chunk_index : Nat
  heading : Option String
  text : Option String
  word_count : Nat
  similarity : Int
  rank : Nat
deriving DecidableEq, Repr

/-- `RetrieveResponse` (agent/src/models.py). -/
structure RetrieveResponse where
  query : String
  match_threshold : Int
  match_count : Nat
  results : List ChunkResult
deriving DecidableEq, Repr

/-- `hash_query(query, match_threshold, match_count)` (cache.py lines 7-20):
the cache key is determined by the key string
`f"{query}:{match_threshold}:{match_count}"` alone.  (The source further
applies MD5 to this string; MD5 is a deterministic function of it, so key
equality is driven by this string and the hash step is dropped from the
model.) -/
def hash_query (query : String) (matchThreshold : Int) (matchCount : Nat) : String :=
  query ++ ":" ++ toString matchThreshold ++ ":" ++ toString matchCount

/-- An `LRUCache` entry: key, cached value, last-access counter.  The entry
list is kept in Python-dict insertion order. -/
structure CacheEntry where
  key : String
  value : RetrieveResponse
  access : Nat

/-- `LRUCache` (cache.py lines 23-94). -/
structure LRUCache where
  capacity : Nat
  entries : List CacheEntry
  accessCounter : Nat

/-- `LRUCache.get`: on a hit, bump the access counter of the entry (in
place, preserving insertion order) and return the value. -/
def cacheGet (c : LRUCache) (k : String) : Option RetrieveResponse × LRUCache :=
  match c.entries.find? (fun e => e.key = k) with
  | some e =>
    (some e.value,
     { c with
       accessCounter := c.accessCounter + 1
       entries := c.entries.map
         (fun x => if x.key = k then { x with access := c.accessCounter + 1 } else x) })
  | none => (none, c)

/-- The minimal access counter among the entries (`min` over the dict). -/
def minAccess : List CacheEntry → Nat
  | [] => 0
  | e :: rest => rest.foldl (fun m x => min m x.access) e.access

/-- `LRUCache._evict_lru`: delete the first entry (in insertion order)
attaining the minimal access counter. -/
def evictLRU (entries : List CacheEntry) : List CacheEntry :=
  match entries with
  | [] => []
  | _ => entries.eraseP (fun e => e.access = minAccess entries)

/-- `LRUCache.put`: update an existing key in place; otherwise evict the
least recently used entry when at capacity, then append the new entry. -/
def cachePut (c : LRUCache) (k : String) (v : RetrieveResponse) : LRUCache :=
  let counter := c.accessCounter + 1
  if c.entries.any (fun e => e.key = k) then
    { c with
      accessCounter := counter
      entries := c.entries.map
        (fun x => if x.key = k then { key := k, value := v, access := counter } else x) }
  else
    let base := if c.entries.length ≥ c.capacity then evictLRU c.entries else c.entries
    { c with accessCounter := counter, entries := base ++ [⟨k, v, counter⟩] }

/-- Build the `ChunkResult` list of `_Retriever.retrieve` from the rows of
`search_similar_chunks`: ranks start at 1, and the `text`/`heading` fields
are included only when the request flags ask for them. -/
def buildResults (req : RetrieveRequest) (rows : List ChunkRow) : List ChunkResult :=
  rows.enum.map (fun p =>
    { chunk_id := p.2.chunk_id
      doc_id := p.2.doc_id
      chunk_index := p.2.chunk_index
      heading := if req.include_heading then some p.2.heading else none
      text := if req.include_text then some p.2.text else none
      word_count := p.2.word_count
      similarity := p.2.similarity
      rank := p.1 + 1 })

/-- `_Retriever.retrieve` (retriever.py lines 26-65) with the embedding and
database abstracted as `db : query ↦ threshold ↦ count ↦ rows` (the query
embedding is a deterministic function of the query text): check the cache
under `hash_query`, and on a miss run the search, build the response and
cache it. -/
def retrieve (db : String → Int → Nat → List ChunkRow)
    (c : LRUCache) (req : RetrieveRequest) : RetrieveResponse × LRUCache :=
  let key := hash_query req.query req.match_threshold req.match_count
  match cacheGet c key with
  | (some cached, c1) => (cached, c1)
  | (none, c1) =>
    let rows := db req.query req.match_threshold req.match_count
    let response : RetrieveResponse :=
      { query := req.query
        match_threshold := req.match_threshold
        match_count := req.match_count
        results := buildResults req rows }
    (response, cachePut c1 key response)

/- ================================================================
   Helper lemmas
   ================================================================ -/

theorem ragRound_iteration_count (env : AgentEnv) (st : AgentState) :
    (ragRound env st).iteration_count = st.iteration_count + 1 := by
  simp only [ragRound, gradeNode, retrieveNode, queryRewriteNode]
  split <;> rfl

theorem ragRound_max_iterations (env : AgentEnv) (st : AgentState) :
    (ragRound env st).max_iterations = st.max_iterations := by
  simp only [ragRound, gradeNode, retrieveNode, queryRewriteNode]
  split <;> rfl

theorem ragRound_question (env : AgentEnv) (st : AgentState) :
    (ragRound env st).question = st.question := by
  simp only [ragRound, gradeNode, retrieveNode, queryRewriteNode]
  split <;> rfl

theorem ragRound_rewritten_queries (env : AgentEnv) (st : AgentState) :
    (ragRound env st).rewritten_queries =
      env.rewriteFn st.question st.iteration_count st.rewritten_queries := by
  simp only [ragRound, gradeNode, retrieveNode, queryRewriteNode]
  split <;> rfl

theorem shouldRefineQuery_eq_rewrite {st : AgentState}
    (h : shouldRefineQuery st = "rewrite") :
    st.relevant_documents = [] ∧ st.iteration_count < st.max_iterations := by
  unfold shouldRefineQuery at h
  split at h
  · exact absurd h (by decide)
  · split at h
    · exact ⟨by simpa using ‹¬st.relevant_documents ≠ []›, ‹_›⟩
    · exact absurd h (by decide)

theorem shouldRefineQuery_of_empty {st : AgentState}
    (h1 : st.relevant_documents = [])
    (h2 : ¬ st.iteration_count < st.max_iterations) :
    shouldRefineQuery st = "generate" := by
  unfold shouldRefineQuery
  rw [if_neg (by simp [h1]), if_neg h2]

theorem ragRound_relevant_of_gradeEmpty {env : AgentEnv}
    (hg : ∀ s docs, documentsGrade (env.gradeFn s docs) docs = [])
    (st : AgentState) :
    (ragRound env st).relevant_documents = [] := by
  simp only [ragRound, gradeNode, retrieveNode, queryRewriteNode]
  split
  · rfl
  · simpa using hg _ _

/- ================================================================
   Claim theorems
   ================================================================ -/

/-- C1 (code bug): at the failing input — grading response `"GARBAGE"`
(uppercase, no digits, not `NONE`/`ALL`) over one candidate document — the
grade step produces the **empty** relevant set, not the full candidate list:
the `try/except` fail-open handler in `_documents_grade_node` is unreachable
(no expression in the guarded block can raise `ValueError` or `IndexError`),
so an unparseable digit-free response silently discards every document,
contradicting the fail-open policy stated by the spec and by the code's own
comment.  The remaining conjuncts confirm the reachable behaviour the claim
describes: `NONE` → empty, `ALL` → all, `"2,4"` over 5 documents → documents
2 and 4, duplicates collapsed and out-of-range indices dropped. -/
theorem c1_grading_parse_policy :
    documentsGrade "GARBAGE" [⟨"c1", "main/1", 5, "t1"⟩] = [] ∧
    documentsGrade "GARBAGE" [⟨"c1", "main/1", 5, "t1"⟩] ≠ [⟨"c1", "main/1", 5, "t1"⟩] ∧
    documentsGrade "NONE"
      [⟨"c1", "d", 1, ""⟩, ⟨"c2", "d", 2, ""⟩, ⟨"c3", "d", 3, ""⟩,
       ⟨"c4", "d", 4, ""⟩, ⟨"c5", "d", 5, ""⟩] = [] ∧
    documentsGrade "ALL"
      [⟨"c1", "d", 1, ""⟩, ⟨"c2", "d", 2, ""⟩, ⟨"c3", "d", 3, ""⟩,
       ⟨"c4", "d", 4, ""⟩, ⟨"c5", "d", 5, ""⟩] =
      [⟨"c1", "d", 1, ""⟩, ⟨"c2", "d", 2, ""⟩, ⟨"c3", "d", 3, ""⟩,
       ⟨"c4", "d", 4, ""⟩, ⟨"c5", "d", 5, ""⟩] ∧
    documentsGrade "2,4"
      [⟨"c1", "d", 1, ""⟩, ⟨"c2", "d", 2, ""⟩, ⟨"c3", "d", 3, ""⟩,
       ⟨"c4", "d", 4, ""⟩, ⟨"c5", "d", 5, ""⟩] =
      [⟨"c2", "d", 2, ""⟩, ⟨"c4", "d", 4, ""⟩] ∧
    documentsGrade "4, 2, 4, 99"
      [⟨"c1", "d", 1, ""⟩, ⟨"c2", "d", 2, ""⟩, ⟨"c3", "d", 3, ""⟩,
       ⟨"c4", "d", 4, ""⟩, ⟨"c5", "d", 5, ""⟩] =
      [⟨"c2", "d", 2, ""⟩, ⟨"c4", "d", 4, ""⟩] := by
  refine ⟨by decide, by decide, by decide, by decide, by decide, by decide⟩

/-- C5 (counterexample): for the ambiguous classifier output `"MAYBE"`
(neither an unambiguous `GREETING` nor `RAG` answer), `_route_node` sets
`needs_retrieval` to `false` and the question is routed down the **direct**
path — refuting the claim that such outputs default to the RAG path. -/
theorem c5_route_counterexample :
    (routeNode (some "MAYBE") (createInitialState "q")).needs_retrieval = false ∧
    shouldRetrieve (routeNode (some "MAYBE") (createInitialState "q")) = "direct" := by
  refine ⟨by decide, by decide⟩

/-- C5 (amended): the route node sets `needs_retrieval` to true exactly when
the classifier output is a string whose stripped, uppercased form equals
`"RAG"`; every other output — ambiguous, malformed, or non-string — sets it
to false and routes the question down the direct path, never the RAG path. -/
theorem c5_routing_default (content : Option String) (st : AgentState) :
    ((routeNode content st).needs_retrieval = true ↔
      routeDecision content = some "RAG") ∧
    (routeNode none st).needs_retrieval = false ∧
    shouldRetrieve (routeNode content st) =
      (if routeDecision content = some "RAG" then "retrieve" else "direct") := by
  refine ⟨by simp [routeNode], by simp [routeNode, routeDecision], ?_⟩
  simp only [shouldRetrieve, routeNode]
  split <;> simp_all

theorem dedupByIdAux_eq_self :
    ∀ (l : List ChunkDoc) (seen : List String),
      (l.map ChunkDoc.chunk_id).Nodup →
      (∀ c ∈ l, c.chunk_id ∉ seen) →
      dedupByIdAux l seen = l := by
  intro l
  induction l with
  | nil => intro seen _ _; rfl
  | cons c rest ih =>
    intro seen hnd hseen
    unfold dedupByIdAux
    rw [if_neg (hseen c (List.mem_cons_self c rest))]
    congr 1
    refine ih _ (by simpa using hnd.of_cons) ?_
    intro x hx
    simp only [List.mem_cons]
    push_neg
    refine ⟨?_, hseen x (List.mem_cons_of_mem c hx)⟩
    intro hEq
    have : c.chunk_id ∈ rest.map ChunkDoc.chunk_id :=
      hEq ▸ List.mem_map_of_mem ChunkDoc.chunk_id hx
    simp only [List.map_cons, List.nodup_cons] at hnd
    exact hnd.1 this

/-- C4: the retrieve-step merge deduplicates by chunk id (first occurrence
wins), sorts by similarity descending and truncates to at most 30 chunks;
on an input whose chunk ids are already pairwise distinct, the dedup pass is
the identity, so the merge returns exactly the similarity-descending sort of
the input truncated at 30. -/
theorem c4_retrieve_merge (l : List ChunkDoc) :
    (mergeRetrievedChunks l).length ≤ 30 ∧
    List.Sorted simGe (mergeRetrievedChunks l) ∧
    ((l.map ChunkDoc.chunk_id).Nodup →
      dedupById l = l ∧
      mergeRetrievedChunks l = (sortBySimilarityDesc l).take 30) := by
  refine ⟨?_, ?_, ?_⟩
  · simp [mergeRetrievedChunks, List.length_take]
  · exact (List.sorted_insertionSort simGe _).sublist (List.take_sublist _ _)
  · intro hnd
    have hid : dedupById l = l :=
      dedupByIdAux_eq_self l [] hnd (by simp)
    exact ⟨hid, by rw [mergeRetrievedChunks, hid]⟩

/-- C4 witness: the merge applied to three chunks with pairwise-distinct ids
(similarities 1, 3, 2) keeps all of them, reordered descending. -/
theorem c4_retrieve_merge_witness :
    (mergeRetrievedChunks
        [⟨"a", "d", 1, ""⟩, ⟨"b", "d", 3, ""⟩, ⟨"c", "d", 2, ""⟩]).length ≤ 30 ∧
    List.Sorted simGe
      (mergeRetrievedChunks
        [⟨"a", "d", 1, ""⟩, ⟨"b", "d", 3, ""⟩, ⟨"c", "d", 2, ""⟩]) ∧
    dedupById [⟨"a", "d", 1, ""⟩, ⟨"b", "d", 3, ""⟩, ⟨"c", "d", 2, ""⟩] =
      [⟨"a", "d", 1, ""⟩, ⟨"b", "d", 3, ""⟩, ⟨"c", "d", 2, ""⟩] ∧
    mergeRetrievedChunks [⟨"a", "d", 1, ""⟩, ⟨"b", "d", 3, ""⟩, ⟨"c", "d", 2, ""⟩] =
      (sortBySimilarityDesc
        [⟨"a", "d", 1, ""⟩, ⟨"b", "d", 3, ""⟩, ⟨"c", "d", 2, ""⟩]).take 30 := by
  have h := c4_retrieve_merge
    [⟨"a", "d", 1, ""⟩, ⟨"b", "d", 3, ""⟩, ⟨"c", "d", 2, ""⟩]
  have hnd := h.2.2 (by decide)
  exact ⟨h.1, h.2.1, hnd.1, hnd.2⟩

theorem emitChunksAux_eq_enumFrom (docId : String) (minSize : Nat) :
    ∀ (candidates : List ChunkData) (idx : Nat),
      emitChunksAux docId minSize candidates idx =
        ((candidates.filter (fun c => minSize ≤ count_words c.text)).enumFrom idx).map
          (fun p => mkChunk docId p.1 p.2) := by
  intro candidates
  induction candidates with
  | nil => intro idx; rfl
  | cons c rest ih =>
    intro idx
    unfold emitChunksAux
    by_cases hc : minSize ≤ count_words c.text
    · rw [if_pos hc]
      have hdc : decide (minSize ≤ count_words c.text) = true := decide_eq_true hc
      simp [List.filter_cons, hdc, List.enumFrom_cons, ih (idx + 1)]
    · rw [if_neg hc]
      have hdc : decide (minSize ≤ count_words c.text) = false := by
        simpa using hc
      simpa [List.filter_cons, hdc] using ih idx

/-- C7: the chunker's emission loop drops every candidate chunk whose
language-aware word count (CJK ideographs plus maximal Latin-letter runs)
is below `minChunkSize`: the emitted list is exactly the enumeration of the
retained candidates, so a dropped candidate is never emitted and consumes no
`chunk_index`, the emitted `chunk_index` values are the consecutive
`0, 1, …` over the retained chunks only, and every emitted chunk's word
count is at least the minimum. -/
theorem c7_chunker_min_size_filter (docId : String) (minChunkSize : Nat)
    (candidates : List ChunkData) :
    emitChunks docId minChunkSize candidates =
      ((candidates.filter (fun c => minChunkSize ≤ count_words c.text)).enum).map
        (fun p => mkChunk docId p.1 p.2) ∧
    (emitChunks docId minChunkSize candidates).map Chunk.chunk_index =
      List.range
        (candidates.filter (fun c => minChunkSize ≤ count_words c.text)).length ∧
    (∀ ch ∈ emitChunks docId minChunkSize candidates,
      minChunkSize ≤ ch.word_count) := by
  have hmain := emitChunksAux_eq_enumFrom docId minChunkSize candidates 0
  refine ⟨hmain, ?_, ?_⟩
  · rw [emitChunks, hmain]
    rw [List.map_map]
    have : (fun p : Nat × ChunkData => (mkChunk docId p.1 p.2).chunk_index) =
        Prod.fst := by
      funext p; rfl
    rw [show Chunk.chunk_index ∘ (fun p : Nat × ChunkData => mkChunk docId p.1 p.2) =
        Prod.fst from funext (fun p => rfl)]
    exact List.enum_map_fst _
  · intro ch hch
    rw [emitChunks, hmain] at hch
    obtain ⟨p, hp, hEq⟩ := List.mem_map.mp hch
    have hp2 : p.2 ∈ candidates.filter (fun c => minChunkSize ≤ count_words c.text) := by
      have := List.snd_mem_of_mem_enum hp
      simpa using this
    have := List.of_mem_filter hp2
    rw [← hEq]
    simpa [mkChunk] using this

/-- C7 witness: two candidates of word counts 2 and 1 under minimum 2 — one
chunk is emitted at index 0 with the minimum satisfied. -/
theorem c7_chunker_min_size_filter_witness :
    (emitChunks "opinion/7" 2 [⟨"白云机场", none⟩, ⟨"好", none⟩]).map Chunk.chunk_index =
      List.range 1 ∧
    2 ≤ (mkChunk "opinion/7" 0 ⟨"白云机场", none⟩).word_count := by
  have h := c7_chunker_min_size_filter "opinion/7" 2 [⟨"白云机场", none⟩, ⟨"好", none⟩]
  refine ⟨?_, ?_⟩
  · have := h.2.1
    simpa using this
  · exact h.2.2 (mkChunk "opinion/7" 0 ⟨"白云机场", none⟩) (by decide)

section DetectLemmas

variable (history : String → Option String) (hashF : String → String)

theorem detectStep_indexed (acc : DetectAcc) (c : String) :
    (detectStep history hashF acc c).indexed =
      acc.indexed.filter (fun g => g ≠ c) := by
  unfold detectStep
  split
  · rfl
  · split
    · rfl
    · split <;> rfl

theorem detectStep_added_of_notIdx {acc : DetectAcc} {c : String}
    (h : c ∉ acc.indexed) :
    (detectStep history hashF acc c).added = c :: acc.added := by
  simp [detectStep, h]

theorem detectStep_added_of_noHistory {acc : DetectAcc} {c : String}
    (hh : history c = none) :
    (detectStep history hashF acc c).added = c :: acc.added := by
  by_cases hIdx : c ∈ acc.indexed
  · simp [detectStep, hIdx, hh]
  · simp [detectStep, hIdx]

theorem detectStep_added_of_some {acc : DetectAcc} {c : String} {s : String}
    (hIdx : c ∈ acc.indexed) (hh : history c = some s) :
    (detectStep history hashF acc c).added = acc.added := by
  have hnn : ¬ (c ∉ acc.indexed) := fun hc => hc hIdx
  simp only [detectStep, if_neg hnn, hh]
  split <;> rfl

theorem detectStep_modified_of_notIdx {acc : DetectAcc} {c : String}
    (h : c ∉ acc.indexed) :
    (detectStep history hashF acc c).modified = acc.modified := by
  simp [detectStep, h]

theorem detectStep_modified_of_noHistory {acc : DetectAcc} {c : String}
    (hh : history c = none) :
    (detectStep history hashF acc c).modified = acc.modified := by
  by_cases hIdx : c ∈ acc.indexed
  · simp [detectStep, hIdx, hh]
  · simp [detectStep, hIdx]

theorem detectStep_modified_of_changed {acc : DetectAcc} {c : String} {s : String}
    (hIdx : c ∈ acc.indexed) (hh : history c = some s) (hne : s ≠ hashF c) :
    (detectStep history hashF acc c).modified = c :: acc.modified := by
  have hnn : ¬ (c ∉ acc.indexed) := fun hc => hc hIdx
  simp only [detectStep, if_neg hnn, hh]
  rw [if_pos hne]

theorem detectStep_modified_of_same {acc : DetectAcc} {c : String}
    (hIdx : c ∈ acc.indexed) (hh : history c = some (hashF c)) :
    (detectStep history hashF acc c).modified = acc.modified := by
  have hnn : ¬ (c ∉ acc.indexed) := fun hc => hc hIdx
  simp only [detectStep, if_neg hnn, hh]
  rw [if_neg (by simp)]

theorem detectStep_added_of_same {acc : DetectAcc} {c : String}
    (hIdx : c ∈ acc.indexed) (hh : history c = some (hashF c)) :
    (detectStep history hashF acc c).added = acc.added := by
  have hnn : ¬ (c ∉ acc.indexed) := fun hc => hc hIdx
  simp only [detectStep, if_neg hnn, hh]
  rw [if_neg (by simp)]

theorem detectStep_added_mono {acc : DetectAcc} {c f : String}
    (h : f ∈ acc.added) : f ∈ (detectStep history hashF acc c).added := by
  by_cases hIdx : c ∈ acc.indexed
  · cases hh : history c with
    | none => rw [detectStep_added_of_noHistory history hashF hh]
              exact List.mem_cons_of_mem _ h
    | some s => rw [detectStep_added_of_some history hashF hIdx hh]
                exact h
  · rw [detectStep_added_of_notIdx history hashF hIdx]
    exact List.mem_cons_of_mem _ h

theorem detectStep_modified_mono {acc : DetectAcc} {c f : String}
    (h : f ∈ acc.modified) : f ∈ (detectStep history hashF acc c).modified := by
  by_cases hIdx : c ∈ acc.indexed
  · cases hh : history c with
    | none => rw [detectStep_modified_of_noHistory history hashF hh]
              exact h
    | some s =>
      by_cases hne : s ≠ hashF c
      · rw [detectStep_modified_of_changed history hashF hIdx hh hne]
        exact List.mem_cons_of_mem _ h
      · have hs : s = hashF c := by simpa using hne
        subst hs
        rw [detectStep_modified_of_same history hashF hIdx hh]
        exact h
  · rw [detectStep_modified_of_notIdx history hashF hIdx]
    exact h

theorem detectStep_added_notMem {acc : DetectAcc} {c f : String}
    (hfc : f ≠ c) (h : f ∉ acc.added) :
    f ∉ (detectStep history hashF acc c).added := by
  by_cases hIdx : c ∈ acc.indexed
  · cases hh : history c with
    | none => rw [detectStep_added_of_noHistory history hashF hh]
              simp [hfc, h]
    | some s => rw [detectStep_added_of_some history hashF hIdx hh]
                exact h
  · rw [detectStep_added_of_notIdx history hashF hIdx]
    simp [hfc, h]

theorem detectStep_modified_notMem {acc : DetectAcc} {c f : String}
    (hfc : f ≠ c) (h : f ∉ acc.modified) :
    f ∉ (detectStep history hashF acc c).modified := by
  by_cases hIdx : c ∈ acc.indexed
  · cases hh : history c with
    | none => rw [detectStep_modified_of_noHistory history hashF hh]
              exact h
    | some s =>
      by_cases hne : s ≠ hashF c
      · rw [detectStep_modified_of_changed history hashF hIdx hh hne]
        simp [hfc, h]
      · have hs : s = hashF c := by simpa using hne
        subst hs
        rw [detectStep_modified_of_same history hashF hIdx hh]
        exact h
  · rw [detectStep_modified_of_notIdx history hashF hIdx]
    exact h

theorem detectFold_added_mono :
    ∀ (current : List String) (acc : DetectAcc) (f : String),
      f ∈ acc.added →
      f ∈ (current.foldl (detectStep history hashF) acc).added := by
  intro current
  induction current with
  | nil => intro acc f h; exact h
  | cons c rest ih =>
    intro acc f h
    exact ih _ f (detectStep_added_mono history hashF h)

theorem detectFold_modified_mono :
    ∀ (current : List String) (acc : DetectAcc) (f : String),
      f ∈ acc.modified →
      f ∈ (current.foldl (detectStep history hashF) acc).modified := by
  intro current
  induction current with
  | nil => intro acc f h; exact h
  | cons c rest ih =>
    intro acc f h
    exact ih _ f (detectStep_modified_mono history hashF h)

theorem detectFold_added_new :
    ∀ (current : List String) (acc : DetectAcc) (f : String),
      f ∈ current →
      (f ∉ acc.indexed ∨ history f = none) →
      f ∈ (current.foldl (detectStep history hashF) acc).added := by
  intro current
  induction current with
  | nil => intro acc f h _; exact absurd h (List.not_mem_nil f)
  | cons c rest ih =>
    intro acc f hmem hcond
    rcases List.mem_cons.mp hmem with hfc | hfrest
    · subst hfc
      rw [List.foldl_cons]
      apply detectFold_added_mono
      rcases hcond with hnotIdx | hnone
      · rw [detectStep_added_of_notIdx history hashF hnotIdx]
        exact List.mem_cons_self f _
      · rw [detectStep_added_of_noHistory history hashF hnone]
        exact List.mem_cons_self f _
    · refine ih _ f hfrest ?_
      rcases hcond with hnotIdx | hnone
      · left
        rw [detectStep_indexed]
        intro hmemF
        exact hnotIdx (List.mem_of_mem_filter hmemF)
      · right; exact hnone

theorem detectFold_modified_new :
    ∀ (current : List String) (acc : DetectAcc) (f storedHash : String),
      f ∈ current →
      f ∈ acc.indexed →
      history f = some storedHash →
      storedHash ≠ hashF f →
      f ∈ (current.foldl (detectStep history hashF) acc).modified := by
  intro current
  induction current with
  | nil => intro acc f s h _ _ _; exact absurd h (List.not_mem_nil f)
  | cons c rest ih =>
    intro acc f storedHash hmem hidx hhist hne
    by_cases hfc : f = c
    · subst hfc
      rw [List.foldl_cons]
      apply detectFold_modified_mono
      rw [detectStep_modified_of_changed history hashF hidx hhist hne]
      exact List.mem_cons_self f _
    · have hfrest : f ∈ rest := by
        rcases List.mem_cons.mp hmem with h1 | h2
        · exact absurd h1 hfc
        · exact h2
      refine ih _ f storedHash hfrest ?_ hhist hne
      rw [detectStep_indexed]
      exact List.mem_filter_of_mem hidx (by simpa using hfc)

theorem detectFold_deleted :
    ∀ (current : List String) (acc : DetectAcc) (f : String),
      f ∈ acc.indexed →
      f ∉ current →
      f ∈ (current.foldl (detectStep history hashF) acc).indexed := by
  intro current
  induction current with
  | nil => intro acc f h _; exact h
  | cons c rest ih =>
    intro acc f hidx hnot
    have hfc : f ≠ c := fun hEq => hnot (hEq ▸ List.mem_cons_self c rest)
    refine ih _ f ?_ (fun hm => hnot (List.mem_cons_of_mem c hm))
    rw [detectStep_indexed]
    exact List.mem_filter_of_mem hidx (by simpa using hfc)

theorem detectFold_untouched :
    ∀ (current : List String) (acc : DetectAcc) (f : String),
      f ∉ current →
      f ∉ acc.added → f ∉ acc.modified → f ∉ acc.indexed →
      f ∉ (current.foldl (detectStep history hashF) acc).added ∧
      f ∉ (current.foldl (detectStep history hashF) acc).modified ∧
      f ∉ (current.foldl (detectStep history hashF) acc).indexed := by
  intro current
  induction current with
  | nil => intro acc f _ h1 h2 h3; exact ⟨h1, h2, h3⟩
  | cons c rest ih =>
    intro acc f hnot h1 h2 h3
    have hfc : f ≠ c := fun hEq => hnot (hEq ▸ List.mem_cons_self c rest)
    refine ih _ f (fun hm => hnot (List.mem_cons_of_mem c hm)) ?_ ?_ ?_
    · exact detectStep_added_notMem history hashF hfc h1
    · exact detectStep_modified_notMem history hashF hfc h2
    · rw [detectStep_indexed]
      intro hm
      exact h3 (List.mem_of_mem_filter hm)

theorem detectFold_none :
    ∀ (current : List String) (acc : DetectAcc) (f : String),
      current.Nodup →
      f ∈ current →
      f ∈ acc.indexed →
      f ∉ acc.added → f ∉ acc.modified →
      history f = some (hashF f) →
      f ∉ (current.foldl (detectStep history hashF) acc).added ∧
      f ∉ (current.foldl (detectStep history hashF) acc).modified ∧
      f ∉ (current.foldl (detectStep history hashF) acc).indexed := by
  intro current
  induction current with
  | nil => intro acc f _ h _ _ _ _; exact absurd h (List.not_mem_nil f)
  | cons c rest ih =>
    intro acc f hnd hmem hidx hadd hmod hhist
    by_cases hfc : f = c
    · subst hfc
      have hrest : f ∉ rest := (List.nodup_cons.mp hnd).1
      refine detectFold_untouched history hashF rest _ f hrest ?_ ?_ ?_
      · rw [detectStep_added_of_same history hashF hidx hhist]
        exact hadd
      · rw [detectStep_modified_of_same history hashF hidx hhist]
        exact hmod
      · rw [detectStep_indexed]
        simp
    · have hfrest : f ∈ rest := by
        rcases List.mem_cons.mp hmem with h1 | h2
        · exact absurd h1 hfc
        · exact h2
      refine ih _ f (List.nodup_cons.mp hnd).2 hfrest ?_ ?_ ?_ hhist
      · rw [detectStep_indexed]
        exact List.mem_filter_of_mem hidx (by simpa using hfc)
      · exact detectStep_added_notMem history hashF hfc hadd
      · exact detectStep_modified_notMem history hashF hfc hmod

end DetectLemmas

/-- C6: `detect_changes` classifies a file present in the current listing
but absent from the indexing history (not in the indexed set, or with no
history record) as added; a file present in both whose stored content
digest differs from the freshly computed one as modified; a file in the
indexed set absent from the current listing as deleted; and a file present
in both with an unchanged digest appears in none of the three sets.
(`current_files` is a Python `set`, hence the `Nodup` hypothesis.) -/
theorem c6_change_detector (currentFiles indexedFiles : List String)
    (history : String → Option String) (hashF : String → String)
    (f storedHash : String) (hnd : currentFiles.Nodup) :
    (f ∈ currentFiles → (f ∉ indexedFiles ∨ history f = none) →
      f ∈ (detectChanges currentFiles indexedFiles history hashF).added) ∧
    (f ∈ currentFiles → f ∈ indexedFiles → history f = some storedHash →
      storedHash ≠ hashF f →
      f ∈ (detectChanges currentFiles indexedFiles history hashF).modified) ∧
    (f ∈ indexedFiles → f ∉ currentFiles →
      f ∈ (detectChanges currentFiles indexedFiles history hashF).indexed) ∧
    (f ∈ currentFiles → f ∈ indexedFiles → history f = some (hashF f) →
      f ∉ (detectChanges currentFiles indexedFiles history hashF).added ∧
      f ∉ (detectChanges currentFiles indexedFiles history hashF).modified ∧
      f ∉ (detectChanges currentFiles indexedFiles history hashF).indexed) := by
  refine ⟨?_, ?_, ?_, ?_⟩
  · intro hmem hcond
    exact detectFold_added_new history hashF currentFiles _ f hmem hcond
  · intro hmem hidx hhist hne
    exact detectFold_modified_new history hashF currentFiles _ f storedHash
      hmem hidx hhist hne
  · intro hidx hnot
    exact detectFold_deleted history hashF currentFiles _ f hidx hnot
  · intro hmem hidx hhist
    exact detectFold_none history hashF currentFiles _ f hnd hmem hidx
      (List.not_mem_nil f) (List.not_mem_nil f) hhist

/-- C6 witness: current listing `{a, b, d}` against indexed `{b, c, d}` with
`b`'s digest changed and `d`'s unchanged: `a` is added, `b` is modified,
`c` is deleted, `d` appears nowhere. -/
theorem c6_change_detector_witness :
    ("a" ∈ (detectChanges ["a", "b", "d"] ["b", "c", "d"]
        (fun s => if s = "b" then some "oldhash" else
          if s = "c" then some "chash" else
          if s = "d" then some "dhash" else none)
        (fun s => if s = "b" then "newhash" else
          if s = "d" then "dhash" else "zz")).added) ∧
    ("b" ∈ (detectChanges ["a", "b", "d"] ["b", "c", "d"]
        (fun s => if s = "b" then some "oldhash" else
          if s = "c" then some "chash" else
          if s = "d" then some "dhash" else none)
        (fun s => if s = "b" then "newhash" else
          if s = "d" then "dhash" else "zz")).modified) ∧
    ("c" ∈ (detectChanges ["a", "b", "d"] ["b", "c", "d"]
        (fun s => if s = "b" then some "oldhash" else
          if s = "c" then some "chash" else
          if s = "d" then some "dhash" else none)
        (fun s => if s = "b" then "newhash" else
          if s = "d" then "dhash" else "zz")).indexed) ∧
    ("d" ∉ (detectChanges ["a", "b", "d"] ["b", "c", "d"]
        (fun s => if s = "b" then some "oldhash" else
          if s = "c" then some "chash" else
          if s = "d" then some "dhash" else none)
        (fun s => if s = "b" then "newhash" else
          if s = "d" then "dhash" else "zz")).added) := by
  refine ⟨?_, ?_, ?_, ?_⟩
  · exact (c6_change_detector ["a", "b", "d"] ["b", "c", "d"] _ _ "a" ""
      (by decide)).1 (by decide) (Or.inl (by decide))
  · exact (c6_change_detector ["a", "b", "d"] ["b", "c", "d"] _ _ "b" "oldhash"
      (by decide)).2.1 (by decide) (by decide) (by simp) (by decide)
  · exact (c6_change_detector ["a", "b", "d"] ["b", "c", "d"] _ _ "c" ""
      (by decide)).2.2.1 (by decide) (by decide)
  · exact ((c6_change_detector ["a", "b", "d"] ["b", "c", "d"] _ _ "d" ""
      (by decide)).2.2.2 (by decide) (by decide) (by simp)).1

theorem shouldRefineQuery_of_lt {st : AgentState}
    (h1 : st.relevant_documents = [])
    (h2 : st.iteration_count < st.max_iterations) :
    shouldRefineQuery st = "rewrite" := by
  unfold shouldRefineQuery
  rw [if_neg (by simp [h1]), if_pos h2]

/-- C2: with `max_iterations = 2` (the value fixed by
`create_initial_state`) and grading that always yields an empty relevant
set, the RAG loop performs exactly 2 rewrite rounds (the round history has
length 2 and `iteration_count` ends at 2), and the final grade decision
routes to `generate` with an empty `relevant_documents` list.  A third
round cannot occur: `ragLoop` is well-founded precisely because each round
increments `iteration_count` and the loop guard bounds it by
`max_iterations`. -/
theorem c2_retry_loop_termination (env : AgentEnv) (q : String)
    (hg : ∀ s docs, documentsGrade (env.gradeFn s docs) docs = []) :
    (ragLoop env (createInitialState q)).2.length = 2 ∧
    (ragLoop env (createInitialState q)).1.iteration_count = 2 ∧
    (ragLoop env (createInitialState q)).1.relevant_documents = [] ∧
    shouldRefineQuery (ragLoop env (createInitialState q)).1 = "generate" := by
  have hrel : ∀ st, (ragRound env st).relevant_documents = [] :=
    ragRound_relevant_of_gradeEmpty hg
  have hcond1 : shouldRefineQuery (ragRound env (createInitialState q)) = "rewrite" := by
    refine shouldRefineQuery_of_lt (hrel _) ?_
    rw [ragRound_iteration_count, ragRound_max_iterations]
    simp [createInitialState]
  have hcond2 :
      shouldRefineQuery (ragRound env (ragRound env (createInitialState q))) =
        "generate" := by
    refine shouldRefineQuery_of_empty (hrel _) ?_
    simp only [ragRound_iteration_count, ragRound_max_iterations]
    simp [createInitialState]
  rw [ragLoop, dif_pos hcond1, ragLoop, dif_neg (by simp [hcond2])]
  refine ⟨rfl, ?_, hrel _, hcond2⟩
  simp only [ragRound_iteration_count]
  rfl

/-- C2 witness: a concrete environment whose grading response is always
`"NONE"`. -/
theorem c2_retry_loop_termination_witness :
    (ragLoop ⟨fun _ _ _ => ["独山 财政"], fun _ => [], fun _ _ => "NONE"⟩
        (createInitialState "独山县的债务问题")).2.length = 2 ∧
    (ragLoop ⟨fun _ _ _ => ["独山 财政"], fun _ => [], fun _ _ => "NONE"⟩
        (createInitialState "独山县的债务问题")).1.iteration_count = 2 ∧
    (ragLoop ⟨fun _ _ _ => ["独山 财政"], fun _ => [], fun _ _ => "NONE"⟩
        (createInitialState "独山县的债务问题")).1.relevant_documents = [] ∧
    shouldRefineQuery
      (ragLoop ⟨fun _ _ _ => ["独山 财政"], fun _ => [], fun _ _ => "NONE"⟩
        (createInitialState "独山县的债务问题")).1 = "generate" :=
  c2_retry_loop_termination
    ⟨fun _ _ _ => ["独山 财政"], fun _ => [], fun _ _ => "NONE"⟩
    "独山县的债务问题" (fun _ _ => rfl)

theorem ragLoop_invariant (env : AgentEnv) :
    ∀ (n : Nat) (st : AgentState), st.max_iterations - st.iteration_count ≤ n →
      (st.iteration_count + 1 ≤ (ragLoop env st).1.iteration_count) ∧
      (st.iteration_count < st.max_iterations →
        (ragLoop env st).1.iteration_count ≤ st.max_iterations) ∧
      (st.max_iterations ≤ st.iteration_count →
        (ragLoop env st).1.iteration_count = st.iteration_count + 1) ∧
      (ragLoop env st).1.max_iterations = st.max_iterations ∧
      (ragLoop env st).2 ≠ [] ∧
      (ragLoop env st).2.getLast? = some (ragLoop env st).1.rewritten_queries ∧
      (ragLoop env st).2.length + st.iteration_count =
        (ragLoop env st).1.iteration_count := by
  intro n
  induction n with
  | zero =>
    intro st hn
    rw [ragLoop]
    by_cases hcond : shouldRefineQuery (ragRound env st) = "rewrite"
    · exfalso
      have h3 := (shouldRefineQuery_eq_rewrite hcond).2
      rw [ragRound_iteration_count, ragRound_max_iterations] at h3
      omega
    · rw [dif_neg hcond]
      refine ⟨?_, ?_, ?_, ?_, ?_, ?_, ?_⟩ <;>
        simp [ragRound_iteration_count, ragRound_max_iterations] <;> omega
  | succ n ih =>
    intro st hn
    rw [ragLoop]
    by_cases hcond : shouldRefineQuery (ragRound env st) = "rewrite"
    · rw [dif_pos hcond]
      have h3 := (shouldRefineQuery_eq_rewrite hcond).2
      rw [ragRound_iteration_count, ragRound_max_iterations] at h3
      have hmeas : (ragRound env st).max_iterations -
          (ragRound env st).iteration_count ≤ n := by
        rw [ragRound_iteration_count, ragRound_max_iterations]
        omega
      obtain ⟨ihA, ihB, ihC, ihD, ihE, ihF, ihG⟩ := ih (ragRound env st) hmeas
      simp only [ragRound_iteration_count, ragRound_max_iterations]
        at ihA ihB ihC ihD ihG
      refine ⟨?_, ?_, ?_, ?_, ?_, ?_, ?_⟩
      · show st.iteration_count + 1 ≤
          (ragLoop env (ragRound env st)).1.iteration_count
        omega
      · intro _
        show (ragLoop env (ragRound env st)).1.iteration_count ≤ st.max_iterations
        exact ihB h3
      · intro hge
        omega
      · show (ragLoop env (ragRound env st)).1.max_iterations = st.max_iterations
        exact ihD
      · show (ragRound env st).rewritten_queries ::
          (ragLoop env (ragRound env st)).2 ≠ []
        simp
      · show ((ragRound env st).rewritten_queries ::
          (ragLoop env (ragRound env st)).2).getLast? =
            some (ragLoop env (ragRound env st)).1.rewritten_queries
        obtain ⟨a, t, hat⟩ := List.exists_cons_of_ne_nil ihE
        rw [hat, List.getLast?_cons_cons, ← hat]
        exact ihF
      · show ((ragRound env st).rewritten_queries ::
          (ragLoop env (ragRound env st)).2).length + st.iteration_count =
            (ragLoop env (ragRound env st)).1.iteration_count
        rw [List.length_cons]
        omega
    · rw [dif_neg hcond]
      refine ⟨?_, ?_, ?_, ?_, ?_, ?_, ?_⟩ <;>
        simp [ragRound_iteration_count, ragRound_max_iterations] <;> omega

/-- C3: for a RAG-classified question entering the retrieval pipeline from
`create_initial_state` (iteration_count 0), at workflow completion
`1 ≤ iteration_count ≤ max_iterations + 1`, the round history holds exactly
`iteration_count` entries (one query list per rewrite round), and
`rewritten_queries` is exactly the history's most recent entry — each
rewrite overwrites the previous round's list rather than appending. -/
theorem c3_iteration_count_invariant (env : AgentEnv) (q : String) :
    1 ≤ (ragLoop env (createInitialState q)).1.iteration_count ∧
    (ragLoop env (createInitialState q)).1.iteration_count ≤
      (createInitialState q).max_iterations + 1 ∧
    (ragLoop env (createInitialState q)).2.length =
      (ragLoop env (createInitialState q)).1.iteration_count ∧
    (ragLoop env (createInitialState q)).2.getLast? =
      some (ragLoop env (createInitialState q)).1.rewritten_queries := by
  obtain ⟨hA, hB, hC, hD, hE, hF, hG⟩ :=
    ragLoop_invariant env ((createInitialState q).max_iterations)
      (createInitialState q) (by simp)
  have hc0 : (createInitialState q).iteration_count = 0 := rfl
  have hm0 : (createInitialState q).max_iterations = 2 := rfl
  refine ⟨by omega, by rw [hm0]; omega, by omega, hF⟩

theorem startsWithPat_append (p r : List Char) : startsWithPat p (p ++ r) = true := by
  induction p with
  | nil => rfl
  | cons c cs ih => simp [startsWithPat, ih]

/-- C9: `_get_episode_name` maps a `livestream/` doc id to the livestream
template preserving the entire remaining path verbatim; maps `main/`,
`reference/`, `opinion/`, `daily/`, `commercial/` and `business/` doc ids
each to their own display template applied to the trailing number (the last
path component with `.md` removed); maps any doc id with an unrecognized
prefix to the generic `文档` fallback template with the trailing number; and
on the claim's concrete examples, `main/501-600/588 → 睡前消息588` and
`livestream/2023/05/20 → 直播问答记录2023/05/20`. -/
theorem c9_citation_mapping :
    (∀ r : List Char,
      get_episode_name ("livestream/".data ++ r) = "直播问答记录".data ++ r) ∧
    (∀ r : List Char,
      get_episode_name ("main/".data ++ r) =
        "睡前消息".data ++ trailingEpisodeNum ("main/".data ++ r)) ∧
    (∀ r : List Char,
      get_episode_name ("reference/".data ++ r) =
        "参考信息".data ++ trailingEpisodeNum ("reference/".data ++ r)) ∧
    (∀ r : List Char,
      get_episode_name ("opinion/".data ++ r) =
        "高见".data ++ trailingEpisodeNum ("opinion/".data ++ r)) ∧
    (∀ r : List Char,
      get_episode_name ("daily/".data ++ r) =
        "每日新闻".data ++ trailingEpisodeNum ("daily/".data ++ r)) ∧
    (∀ r : List Char,
      get_episode_name ("commercial/".data ++ r) =
        "讲点黑话".data ++ trailingEpisodeNum ("commercial/".data ++ r)) ∧
    (∀ r : List Char,
      get_episode_name ("business/".data ++ r) =
        "产经破壁机".data ++ trailingEpisodeNum ("business/".data ++ r)) ∧
    (∀ d : List Char,
      lcStartsWith d "livestream/".data = false →
      lcStartsWith d "main/".data = false →
      lcStartsWith d "reference/".data = false →
      lcStartsWith d "opinion/".data = false →
      lcStartsWith d "daily/".data = false →
      lcStartsWith d "commercial/".data = false →
      lcStartsWith d "business/".data = false →
      get_episode_name d = "文档".data ++ trailingEpisodeNum d) ∧
    get_episode_name "main/501-600/588".data = "睡前消息588".data ∧
    get_episode_name "livestream/2023/05/20".data = "直播问答记录2023/05/20".data := by
  refine ⟨fun r => rfl, fun r => rfl, fun r => rfl, fun r => rfl, fun r => rfl,
    fun r => rfl, fun r => rfl, ?_, by decide, by decide⟩
  intro d h1 h2 h3 h4 h5 h6 h7
  unfold get_episode_name
  rw [if_neg (by simp [h1]), if_neg (by simp [h2]), if_neg (by simp [h3]),
    if_neg (by simp [h4]), if_neg (by simp [h5]), if_neg (by simp [h6]),
    if_neg (by simp [h7])]

/-- C9 witness: the unrecognized prefix `unknown/` falls back to the generic
template. -/
theorem c9_citation_mapping_witness :
    get_episode_name "unknown/7".data = "文档".data ++ trailingEpisodeNum "unknown/7".data := by
  exact c9_citation_mapping.2.2.2.2.2.2.2.1 "unknown/7".data
    (by decide) (by decide) (by decide) (by decide) (by decide) (by decide) (by decide)

theorem find?_update (k : String) (ctr : Nat) :
    ∀ (entries : List CacheEntry) (e : CacheEntry),
      entries.find? (fun x => x.key = k) = some e →
      (entries.map (fun x => if x.key = k then { x with access := ctr } else x)).find?
          (fun x => x.key = k) = some { e with access := ctr } := by
  intro entries
  induction entries with
  | nil => intro e h; simp at h
  | cons x rest ih =>
    intro e h
    by_cases hx : x.key = k
    · rw [List.find?_cons_of_pos _ (by simpa using hx)] at h
      injection h with he
      subst he
      simp only [List.map_cons, if_pos hx]
      rw [List.find?_cons_of_pos _ (by simpa using hx)]
    · rw [List.find?_cons_of_neg _ (by simpa using hx)] at h
      simp only [List.map_cons, if_neg hx]
      rw [List.find?_cons_of_neg _ (by simpa using hx)]
      exact ih e h

theorem find?_append_last (k : String) (x0 : CacheEntry) (hx0 : x0.key = k) :
    ∀ (l : List CacheEntry), (∀ x ∈ l, ¬ x.key = k) →
      (l ++ [x0]).find? (fun x => x.key = k) = some x0 := by
  intro l
  induction l with
  | nil => intro _; simp [List.find?, hx0]
  | cons x rest ih =>
    intro hall
    rw [List.cons_append,
      List.find?_cons_of_neg _ (by simpa using hall x (List.mem_cons_self x rest))]
    exact ih (fun y hy => hall y (List.mem_cons_of_mem x hy))

/-- On a cache hit, `retrieve` returns the cached response and only bumps the
hit entry's access counter. -/
theorem retrieve_hit (db : String → Int → Nat → List ChunkRow) (c : LRUCache)
    (req : RetrieveRequest) (e : CacheEntry)
    (h : c.entries.find?
        (fun x => x.key = hash_query req.query req.match_threshold req.match_count) =
      some e) :
    (retrieve db c req).1 = e.value ∧
    (retrieve db c req).2.entries = c.entries.map
      (fun x => if x.key = hash_query req.query req.match_threshold req.match_count
        then { x with access := c.accessCounter + 1 } else x) := by
  simp [retrieve, cacheGet, h]

theorem evictLRU_sublist (l : List CacheEntry) : (evictLRU l).Sublist l := by
  cases l with
  | nil => simp [evictLRU]
  | cons x rest => exact List.eraseP_sublist _

theorem cachePut_entries_of_absent (c : LRUCache) (k : String) (v : RetrieveResponse)
    (h : ∀ x ∈ c.entries, ¬ x.key = k) :
    (cachePut c k v).entries =
      (if c.entries.length ≥ c.capacity then evictLRU c.entries else c.entries) ++
        [⟨k, v, c.accessCounter + 1⟩] := by
  have hany : c.entries.any (fun e => e.key = k) = false := by
    rw [List.any_eq_false]
    intro x hx
    simpa using h x hx
  simp [cachePut, hany]

/-- On a cache miss, `retrieve` runs the search, builds the response from the
request's include flags, and caches it under the query/threshold/count key. -/
theorem retrieve_miss (db : String → Int → Nat → List ChunkRow) (c : LRUCache)
    (req : RetrieveRequest)
    (h : c.entries.find?
        (fun x => x.key = hash_query req.query req.match_threshold req.match_count) =
      none) :
    retrieve db c req =
      ({ query := req.query, match_threshold := req.match_threshold,
         match_count := req.match_count,
         results := buildResults req (db req.query req.match_threshold req.match_count) },
       cachePut c (hash_query req.query req.match_threshold req.match_count)
         { query := req.query, match_threshold := req.match_threshold,
           match_count := req.match_count,
           results := buildResults req (db req.query req.match_threshold req.match_count) }) := by
  simp [retrieve, cacheGet, h]

/-- C10: the retrieval cache key is computed only from
(query, match_threshold, match_count) — the `include_text` and
`include_heading` flags are not part of it — so for any two retrieve calls
agreeing on those three fields (whatever their include flags), the second
call returns the response cached by the first call unchanged: its `text` and
`heading` fields reflect the first request's flags, not the second's. -/
theorem c10_cache_key_ignores_include_flags
    (db : String → Int → Nat → List ChunkRow) (c0 : LRUCache)
    (req1 req2 : RetrieveRequest)
    (hq : req2.query = req1.query)
    (ht : req2.match_threshold = req1.match_threshold)
    (hc : req2.match_count = req1.match_count) :
    hash_query req2.query req2.match_threshold req2.match_count =
      hash_query req1.query req1.match_threshold req1.match_count ∧
    (retrieve db (retrieve db c0 req1).2 req2).1 = (retrieve db c0 req1).1 := by
  have hkey : hash_query req2.query req2.match_threshold req2.match_count =
      hash_query req1.query req1.match_threshold req1.match_count := by
    rw [hq, ht, hc]
  refine ⟨hkey, ?_⟩
  cases hfind : c0.entries.find?
      (fun x => x.key = hash_query req1.query req1.match_threshold req1.match_count) with
  | some e =>
    obtain ⟨h1v, h1e⟩ := retrieve_hit db c0 req1 e hfind
    have hfind2 : (retrieve db c0 req1).2.entries.find?
        (fun x => x.key = hash_query req2.query req2.match_threshold req2.match_count) =
        some { e with access := c0.accessCounter + 1 } := by
      rw [hkey, h1e]
      exact find?_update _ _ c0.entries e hfind
    obtain ⟨h2v, _⟩ := retrieve_hit db _ req2 _ hfind2
    rw [h2v, h1v]
  | none =>
    rw [retrieve_miss db c0 req1 hfind]
    have hbase : ∀ x ∈ (if c0.entries.length ≥ c0.capacity then evictLRU c0.entries
        else c0.entries),
        ¬ x.key = hash_query req1.query req1.match_threshold req1.match_count := by
      intro x hx
      have hmem : x ∈ c0.entries := by
        by_cases hcap : c0.entries.length ≥ c0.capacity
        · rw [if_pos hcap] at hx
          exact (evictLRU_sublist c0.entries).mem hx
        · rw [if_neg hcap] at hx
          exact hx
      have := List.find?_eq_none.mp hfind x hmem
      simpa using this
    have hput := cachePut_entries_of_absent c0
      (hash_query req1.query req1.match_threshold req1.match_count)
      { query := req1.query, match_threshold := req1.match_threshold,
        match_count := req1.match_count,
        results := buildResults req1 (db req1.query req1.match_threshold req1.match_count) }
      (fun x hx => by simpa using List.find?_eq_none.mp hfind x hx)
    have hfind2 : (cachePut c0
        (hash_query req1.query req1.match_threshold req1.match_count)
        { query := req1.query, match_threshold := req1.match_threshold,
          match_count := req1.match_count,
          results := buildResults req1
            (db req1.query req1.match_threshold req1.match_count) }).entries.find?
        (fun x => x.key = hash_query req2.query req2.match_threshold req2.match_count) =
        some ⟨hash_query req1.query req1.match_threshold req1.match_count,
          { query := req1.query, match_threshold := req1.match_threshold,
            match_count := req1.match_count,
            results := buildResults req1
              (db req1.query req1.match_threshold req1.match_count) },
          c0.accessCounter + 1⟩ := by
      rw [hkey, hput]
      exact find?_append_last
        (hash_query req1.query req1.match_threshold req1.match_count) _ rfl _ hbase
    obtain ⟨h2v, _⟩ := retrieve_hit db _ req2 _ hfind2
    rw [h2v]

/-- C10 witness: two requests identical except that the first includes text
and heading and the second excludes both; one result row in the store; the
second call returns the first call's cached response. -/
theorem c10_cache_key_ignores_include_flags_witness :
    hash_query "衡水中学" 70 100 = hash_query "衡水中学" 70 100 ∧
    (retrieve (fun _ _ _ => [⟨"ck1", "main/501-600/588", 3, "h", "txt", 9, 88⟩])
        ((retrieve (fun _ _ _ => [⟨"ck1", "main/501-600/588", 3, "h", "txt", 9, 88⟩])
          ⟨1000, [], 0⟩ ⟨"衡水中学", 70, 100, true, true⟩).2)
        ⟨"衡水中学", 70, 100, false, false⟩).1 =
      (retrieve (fun _ _ _ => [⟨"ck1", "main/501-600/588", 3, "h", "txt", 9, 88⟩])
        ⟨1000, [], 0⟩ ⟨"衡水中学", 70, 100, true, true⟩).1 :=
  c10_cache_key_ignores_include_flags
    (fun _ _ _ => [⟨"ck1", "main/501-600/588", 3, "h", "txt", 9, 88⟩])
    ⟨1000, [], 0⟩ ⟨"衡水中学", 70, 100, true, true⟩ ⟨"衡水中学", 70, 100, false, false⟩
    rfl rfl rfl


theorem chunksOf_flatten {α : Type} : ∀ (n : Nat) (l : List α), (chunksOf n l).flatten = l := by
  intro n l
  induction n, l using chunksOf.induct with
  | case1 n => rw [chunksOf]; rfl
  | case2 l =>
    rw [chunksOf]
    · simp
    · assumption
  | case3 n x xs ih =>
    rw [chunksOf]
    simp only [List.flatten_cons, ih]
    exact List.take_append_drop _ _

theorem chunksOf_mem_length_or {α : Type} :
    ∀ (n : Nat) (l : List α), ∀ c ∈ chunksOf n l, c.length ≤ n ∨ n = 0 := by
  intro n l
  induction n, l using chunksOf.induct with
  | case1 n => intro c hc; rw [chunksOf] at hc; simp at hc
  | case2 l => intro c hc; right; rfl
  | case3 n x xs ih =>
    intro c hc
    rw [chunksOf] at hc
    rcases List.mem_cons.mp hc with hEq | hmem
    · left
      subst hEq
      simpa using List.length_take_le _ _
    · exact ih c hmem

theorem chunksOf_ne_nil {α : Type} :
    ∀ (n : Nat) (l : List α), l ≠ [] → chunksOf n l ≠ [] := by
  intro n l h
  match n, l with
  | n, [] => exact absurd rfl h
  | 0, x :: xs =>
    rw [chunksOf]
    · simp
    · simp
  | n + 1, x :: xs => rw [chunksOf]; simp

theorem chunksOf_length_ge_two {α : Type} :
    ∀ (n : Nat) (l : List α), n + 1 < l.length → 2 ≤ (chunksOf (n + 1) l).length := by
  intro n l hlen
  match l with
  | [] => simp at hlen
  | x :: xs =>
    rw [chunksOf]
    rw [List.length_cons]
    have hx : xs.drop n ≠ [] := by
      intro hEq
      have := congrArg List.length hEq
      simp only [List.length_drop, List.length_nil] at this
      simp only [List.length_cons] at hlen
      omega
    have := chunksOf_ne_nil (n + 1) (xs.drop n) hx
    have hpos : 1 ≤ (chunksOf (n + 1) (xs.drop n)).length :=
      List.length_pos.mpr this
    omega

theorem generateBatched_eq_map (embed : String → List ℚ) (bs : Nat)
    (v : List String) : generateBatched embed bs v = v.map embed := by
  unfold generateBatched
  rw [List.flatMap_def, ← List.map_flatten, chunksOf_flatten]

theorem filterMap_ite {α β : Type} (p : α → Prop) [DecidablePred p] (f : α → β) :
    ∀ l : List α,
      l.filterMap (fun x => if p x then some (f x) else none) =
        (l.filter (fun x => p x)).map f := by
  intro l
  induction l with
  | nil => rfl
  | cons x rest ih =>
    by_cases hx : p x
    · simp [List.filterMap_cons, List.filter_cons, hx, ih]
    · simp [List.filterMap_cons, List.filter_cons, hx, ih]

theorem filter_map_const_snd {β : Type} (k idx : Nat) (l : List β) (hne : k ≠ idx) :
    (l.map (fun t => (t, k))).filter (fun x => x.2 = idx) = [] := by
  induction l with
  | nil => rfl
  | cons x rest ih => simp [List.filter_cons, hne, ih]

theorem filter_map_const_snd_eq {β : Type} (k : Nat) (l : List β) :
    (l.map (fun t => (t, k))).filter (fun x => x.2 = k) = l.map (fun t => (t, k)) := by
  induction l with
  | nil => rfl
  | cons x rest ih => simp [List.filter_cons, ih]

theorem entriesFrom_filter_lt (encode : String → List Nat) (decode : List Nat → String) :
    ∀ (texts : List String) (k idx : Nat), idx < k →
      ((texts.enumFrom k).flatMap
          (fun p => (piecesOf encode decode p.2).map (fun t => (t, p.1)))).filter
        (fun x => x.2 = idx) = [] := by
  intro texts
  induction texts with
  | nil => intro k idx _; rfl
  | cons t rest ih =>
    intro k idx hlt
    rw [List.enumFrom_cons, List.flatMap_cons, List.filter_append]
    dsimp only
    rw [filter_map_const_snd k idx _ (by omega), List.nil_append]
    exact ih (k + 1) idx (by omega)

theorem entriesFrom_filter_eq (encode : String → List Nat) (decode : List Nat → String) :
    ∀ (texts : List String) (k j : Nat) (hj : j < texts.length),
      ((texts.enumFrom k).flatMap
          (fun p => (piecesOf encode decode p.2).map (fun t => (t, p.1)))).filter
        (fun x => x.2 = k + j) =
      (piecesOf encode decode (texts.get ⟨j, hj⟩)).map (fun t => (t, k + j)) := by
  intro texts
  induction texts with
  | nil => intro k j hj; simp at hj
  | cons t rest ih =>
    intro k j hj
    rw [List.enumFrom_cons, List.flatMap_cons, List.filter_append]
    dsimp only
    cases j with
    | zero =>
      rw [Nat.add_zero, filter_map_const_snd_eq k (piecesOf encode decode t)]
      rw [entriesFrom_filter_lt encode decode rest (k + 1) k (by omega)]
      simp
    | succ j2 =>
      rw [filter_map_const_snd k (k + (j2 + 1)) _ (by omega), List.nil_append]
      have hj2 : j2 < rest.length := by simpa using hj
      have := ih (k + 1) j2 hj2
      rw [show k + 1 + j2 = k + (j2 + 1) from by omega] at this
      rw [this]
      rfl

theorem groupedAt_eq (embed : String → List ℚ) (idx : Nat)
    (entries : List (String × Nat)) :
    groupedAt (entries.map (fun p => embed p.1)) (entries.map Prod.snd) idx =
      (entries.filter (fun x => x.2 = idx)).map (fun p => embed p.1) := by
  unfold groupedAt
  rw [List.zip_map' (fun p => embed p.1) Prod.snd entries]
  rw [List.filterMap_map]
  have : ((fun p : List ℚ × Nat => if p.2 = idx then some p.1 else none) ∘
      (fun a : String × Nat => (embed a.1, a.2))) =
      (fun x : String × Nat => if x.2 = idx then some (embed x.1) else none) := by
    funext a
    rfl
  rw [this, filterMap_ite (fun x : String × Nat => x.2 = idx) (fun p => embed p.1)]

theorem length_le_sum_of_one_le : ∀ (l : List Nat), (∀ x ∈ l, 1 ≤ x) → l.length ≤ l.sum := by
  intro l
  induction l with
  | nil => intro _; simp
  | cons x rest ih =>
    intro h
    rw [List.length_cons, List.sum_cons]
    have h1 := h x (List.mem_cons_self x rest)
    have h2 := ih (fun y hy => h y (List.mem_cons_of_mem x hy))
    omega

theorem all_eq_one_of_sum_eq_length :
    ∀ (l : List Nat), (∀ x ∈ l, 1 ≤ x) → l.sum = l.length → ∀ x ∈ l, x = 1 := by
  intro l
  induction l with
  | nil => intro _ _ x hx; simp at hx
  | cons y rest ih =>
    intro hone hsum x hx
    have hy := hone y (List.mem_cons_self y rest)
    have hrest1 : ∀ z ∈ rest, 1 ≤ z := fun z hz => hone z (List.mem_cons_of_mem y hz)
    have hlen := length_le_sum_of_one_le rest hrest1
    rw [List.sum_cons, List.length_cons] at hsum
    have hyeq : y = 1 := by omega
    have hsum2 : rest.sum = rest.length := by omega
    rcases List.mem_cons.mp hx with hEq | hmem
    · exact hEq ▸ hyeq
    · exact ih hrest1 hsum2 x hmem

theorem piecesOf_length_pos (encode : String → List Nat) (decode : List Nat → String)
    (t : String) : 1 ≤ (piecesOf encode decode t).length := by
  by_cases hlen : (encode t).length ≤ MAX_TOKENS_PER_INPUT
  · simp [piecesOf, hlen]
  · simp only [piecesOf, if_neg hlen]
    unfold splitByTokens
    rw [List.length_map]
    refine List.length_pos.mpr (chunksOf_ne_nil _ _ ?_)
    intro hEq
    rw [hEq] at hlen
    simp [MAX_TOKENS_PER_INPUT] at hlen

theorem piecesOf_of_small {encode : String → List Nat} {decode : List Nat → String}
    {t : String} (hlen : (encode t).length ≤ MAX_TOKENS_PER_INPUT) :
    piecesOf encode decode t = [t] := by
  simp [piecesOf, hlen]

theorem piecesOf_of_oversized {encode : String → List Nat} {decode : List Nat → String}
    {t : String} (hlen : ¬ (encode t).length ≤ MAX_TOKENS_PER_INPUT) :
    piecesOf encode decode t = splitByTokens decode (encode t) MAX_TOKENS_PER_INPUT := by
  simp [piecesOf, hlen]

theorem piecesOf_length_ge_two {encode : String → List Nat} {decode : List Nat → String}
    {t : String} (hlen : ¬ (encode t).length ≤ MAX_TOKENS_PER_INPUT) :
    2 ≤ (piecesOf encode decode t).length := by
  rw [piecesOf_of_oversized hlen]
  unfold splitByTokens
  rw [List.length_map]
  have h8091 : MAX_TOKENS_PER_INPUT - 100 = 8090 + 1 := by
    simp [MAX_TOKENS_PER_INPUT]
  rw [h8091]
  refine chunksOf_length_ge_two 8090 (encode t) ?_
  simp only [MAX_TOKENS_PER_INPUT] at hlen
  omega

theorem piecesOf_eq_single_of_length_one {encode : String → List Nat}
    {decode : List Nat → String} {t : String}
    (h1 : (piecesOf encode decode t).length = 1) :
    piecesOf encode decode t = [t] := by
  by_cases hlen : (encode t).length ≤ MAX_TOKENS_PER_INPUT
  · exact piecesOf_of_small hlen
  · have := @piecesOf_length_ge_two encode decode t hlen
    omega

theorem validateEntries_filter (encode : String → List Nat) (decode : List Nat → String)
    (texts : List String) (idx : Nat) (hidx : idx < texts.length) :
    (validateEntries encode decode texts).filter (fun x => x.2 = idx) =
      (piecesOf encode decode (texts.get ⟨idx, hidx⟩)).map (fun t => (t, idx)) := by
  unfold validateEntries
  have := entriesFrom_filter_eq encode decode texts 0 idx hidx
  simpa [List.enum] using this

theorem validateEntries_length (encode : String → List Nat) (decode : List Nat → String)
    (texts : List String) :
    (validateEntries encode decode texts).length =
      (texts.map (fun t => (piecesOf encode decode t).length)).sum := by
  unfold validateEntries
  rw [List.length_flatMap]
  have hcomp : (List.length ∘ fun p : Nat × String =>
      (piecesOf encode decode p.2).map (fun t => (t, p.1))) =
      (fun t => (piecesOf encode decode t).length) ∘ Prod.snd := by
    funext p
    simp
  rw [hcomp, ← List.map_map, List.enum_map_snd]

theorem flatMap_eq_map_of_singleton {α β : Type} (f : α → List β) (g : α → β) :
    ∀ (l : List α), (∀ p ∈ l, f p = [g p]) → l.flatMap f = l.map g := by
  intro l
  induction l with
  | nil => intro _; rfl
  | cons x rest ih =>
    intro h
    rw [List.flatMap_cons, h x (List.mem_cons_self x rest), List.map_cons,
      ih (fun y hy => h y (List.mem_cons_of_mem x hy))]
    rfl

theorem generate_embeddings_spec (encode : String → List Nat)
    (decode : List Nat → String) (embed : String → List ℚ) (batchSize : Nat)
    (texts : List String) (ht : texts ≠ []) (idx : Nat) (hidx : idx < texts.length) :
    (generate_embeddings encode decode embed batchSize texts).length = texts.length ∧
    (generate_embeddings encode decode embed batchSize texts)[idx]? =
      some (mergeGroup
        ((piecesOf encode decode (texts.get ⟨idx, hidx⟩)).map embed)) := by
  have hbody : generate_embeddings encode decode embed batchSize texts =
      mergeSplitEmbeddings
        ((validateEntries encode decode texts).map (fun p => embed p.1))
        ((validateEntries encode decode texts).map Prod.snd) texts.length := by
    simp only [generate_embeddings, if_neg ht, validateAndSplitTexts]
    rw [generateBatched_eq_map, List.map_map]
    rfl
  rw [hbody]
  by_cases hlen : ((validateEntries encode decode texts).map
      (fun p => embed p.1)).length = texts.length
  · -- no split occurred: the embeddings are returned as-is
    rw [mergeSplitEmbeddings, if_pos hlen]
    have hsum : (texts.map (fun t => (piecesOf encode decode t).length)).sum =
        texts.length := by
      rw [List.length_map] at hlen
      rw [← validateEntries_length encode decode texts, hlen]
    have hone : ∀ t ∈ texts, (piecesOf encode decode t).length = 1 := by
      intro t htm
      refine all_eq_one_of_sum_eq_length
        (texts.map (fun t => (piecesOf encode decode t).length)) ?_
        (by rw [hsum, List.length_map]) _ (List.mem_map_of_mem _ htm)
      intro x hx
      obtain ⟨t2, _, rfl⟩ := List.mem_map.mp hx
      exact piecesOf_length_pos encode decode t2
    have hsingle : ∀ t ∈ texts, piecesOf encode decode t = [t] :=
      fun t htm => piecesOf_eq_single_of_length_one (hone t htm)
    have hentries : validateEntries encode decode texts =
        texts.enum.map (fun p => (p.2, p.1)) := by
      unfold validateEntries
      refine flatMap_eq_map_of_singleton _ _ _ ?_
      intro p hp
      rw [hsingle p.2 (List.snd_mem_of_mem_enum hp)]
      rfl
    constructor
    · exact hlen
    · rw [hentries, List.map_map, List.getElem?_map]
      have hcomp : ((fun p : String × Nat => embed p.1) ∘
          (fun p : Nat × String => (p.2, p.1))) = (fun p : Nat × String => embed p.2) :=
        rfl
      rw [hcomp]
      rw [show texts.enum[idx]? = some (idx, texts.get ⟨idx, hidx⟩) from by
        rw [List.getElem?_enum, List.getElem?_eq_getElem hidx]
        rfl]
      rw [Option.map_some']
      rw [hsingle (texts.get ⟨idx, hidx⟩) (texts.get_mem _ _)]
      rfl
  · -- splits occurred: group by original index and merge
    rw [mergeSplitEmbeddings, if_neg hlen]
    constructor
    · rw [List.length_map, List.length_range]
    · rw [List.getElem?_map, List.getElem?_range hidx]
      rw [Option.map_some']
      congr 1
      rw [groupedAt_eq, validateEntries_filter encode decode texts idx hidx,
        List.map_map]
      rfl


/-- The element-wise average is used exactly when a group holds more than
one part. -/
theorem mergeGroup_eq_avg (es : List (List ℚ)) (h2 : 2 ≤ es.length) :
    mergeGroup es = avgEmbeddings es := by
  match es with
  | [] => simp at h2
  | [e] => simp at h2
  | e1 :: e2 :: rest => rfl

/-- C8: `generate_embeddings` preserves the 1:1 text-to-embedding
correspondence: for every non-empty input list it returns exactly one vector
per input text.  A text whose token count exceeds the per-input limit is
split into token slices of at most `MAX_TOKENS_PER_INPUT - 100` tokens (a
100-token safety margin below the hard limit), each decoded slice is
embedded independently, and the output vector at that text's index is the
merge of its piece embeddings — the piece itself when there is one piece,
their element-wise average when there are several (`mergeGroup_eq_avg`). -/
theorem c8_embedding_split_merge (encode : String → List Nat)
    (decode : List Nat → String) (embed : String → List ℚ) (batchSize : Nat)
    (texts : List String) (ht : texts ≠ []) (idx : Nat)
    (hidx : idx < texts.length) :
    (generate_embeddings encode decode embed batchSize texts).length =
      texts.length ∧
    (∀ t : String, MAX_TOKENS_PER_INPUT < (encode t).length →
      piecesOf encode decode t =
        (chunksOf (MAX_TOKENS_PER_INPUT - 100) (encode t)).map decode ∧
      2 ≤ (piecesOf encode decode t).length ∧
      (∀ s ∈ chunksOf (MAX_TOKENS_PER_INPUT - 100) (encode t),
        s.length ≤ MAX_TOKENS_PER_INPUT - 100)) ∧
    (generate_embeddings encode decode embed batchSize texts)[idx]? =
      some (mergeGroup
        ((piecesOf encode decode (texts.get ⟨idx, hidx⟩)).map embed)) := by
  obtain ⟨hlen, hget⟩ :=
    generate_embeddings_spec encode decode embed batchSize texts ht idx hidx
  refine ⟨hlen, ?_, hget⟩
  intro t hlen2
  have hnot : ¬ (encode t).length ≤ MAX_TOKENS_PER_INPUT := by omega
  refine ⟨piecesOf_of_oversized hnot, piecesOf_length_ge_two hnot, ?_⟩
  intro s hs
  have h8091 : MAX_TOKENS_PER_INPUT - 100 = 8090 + 1 := by
    simp [MAX_TOKENS_PER_INPUT]
  rw [h8091] at hs ⊢
  rcases chunksOf_mem_length_or (8090 + 1) (encode t) s hs with h | h
  · exact h
  · omega

/-- C8 witness: two short texts, embedded with a trivial tokenizer — one
vector per input. -/
theorem c8_embedding_split_merge_witness :
    (generate_embeddings (fun _ => [1, 2]) (fun _ => "x") (fun _ => [1, 0]) 2
        ["衡水中学", "独山县"]).length = 2 ∧
    (∀ t : String, MAX_TOKENS_PER_INPUT < ((fun _ => [1, 2]) t : List Nat).length →
      piecesOf (fun _ => [1, 2]) (fun _ => "x") t =
        (chunksOf (MAX_TOKENS_PER_INPUT - 100) ((fun _ => [1, 2]) t)).map (fun _ => "x") ∧
      2 ≤ (piecesOf (fun _ => [1, 2]) (fun _ => "x") t).length ∧
      (∀ s ∈ chunksOf (MAX_TOKENS_PER_INPUT - 100) ((fun _ => [1, 2]) t),
        s.length ≤ MAX_TOKENS_PER_INPUT - 100)) ∧
    (generate_embeddings (fun _ => [1, 2]) (fun _ => "x") (fun _ => [1, 0]) 2
        ["衡水中学", "独山县"])[1]? =
      some (mergeGroup
        ((piecesOf (fun _ => [1, 2]) (fun _ => "x")
          (["衡水中学", "独山县"].get ⟨1, by decide⟩)).map (fun _ => [1, 0]))) :=
  c8_embedding_split_merge (fun _ => [1, 2]) (fun _ => "x") (fun _ => [1, 0]) 2
    ["衡水中学", "独山县"] (by decide) 1 (by decide)

end BedtimeNews
